import Mathlib

/-!
Verification of the `build-push.py` container build orchestrator
(MVPStudio/docker-images).

The script builds a catalog of container images (each with a version and a
list of dependency repo names extracted from its Dockerfile template),
optionally narrows it with `--only`, and then schedules builds in dependency
order in `do_builds`. We give a shallow embedding of the pure core of this
code: Python dicts (which preserve insertion order) are modelled as
association lists `List (String × ImageToBuild)`, the effectful calls in
`build_one` (template render, `docker build`, `docker push`) are recorded as
an observable trace of (repo, substitution mapping, tag) triples, and the
possible `KeyError` raised by `del d[k]` on a missing key is modelled with
an explicit error outcome.  The `push` flag only controls whether an extra
`docker push` of the already-computed tag happens, so it is not modelled.
-/

/-- Image record mirroring the `ImageToBuild` class of `build-push.py`:
a directory (of which only the name is observable through `repo`), an
integer version and the list of dependency repo names. -/
structure ImageToBuild where
  directoryName : String
  version : Nat
  deps : List String
deriving DecidableEq

/-- Mirrors the `repo` property: the directory name. -/
def ImageToBuild.repo (i : ImageToBuild) : String := i.directoryName

/-- Mirrors the `full_repo` property. -/
def ImageToBuild.full_repo (i : ImageToBuild) : String := "mvpstudio/" ++ i.repo

/-- Fuel-driven decimal digit list of a natural number (most significant
first), modelling the decimal conversion done by Python's `%d`. -/
def decDigitsAux : Nat → Nat → List Char
  | 0, _ => []
  | f + 1, n =>
    if n < 10 then [Nat.digitChar n]
    else decDigitsAux f (n / 10) ++ [Nat.digitChar (n % 10)]

/-- Decimal digits of `n`, most significant first. -/
def decDigits (n : Nat) : List Char := decDigitsAux (n + 1) n

/-- Mirrors Python's `'v%03d' % n`: the decimal rendering of `n` left-padded
with zeros to width 3, prefixed with the letter `v`. -/
def fmtV3 (n : Nat) : String :=
  ⟨'v' :: (List.replicate (3 - (decDigits n).length) '0' ++ decDigits n)⟩

/-- Mirrors the `string_version` property of `ImageToBuild`. -/
def ImageToBuild.string_version (i : ImageToBuild) : String := fmtV3 i.version

/-- A Python dict from repo name to image, as an insertion-ordered
association list (Python 3 dicts preserve insertion order). -/
abbrev Dict := List (String × ImageToBuild)

/-- The keys of a dict, in order. -/
def dkeys (d : Dict) : List String := d.map Prod.fst

/-- Python's `k in d`. -/
def hasKey (d : Dict) (k : String) : Bool := d.any (fun p => p.1 == k)

/-- Python's `d[k] = v`: replace in place when the key exists, else append. -/
def pySet (d : Dict) (k : String) (v : ImageToBuild) : Dict :=
  if hasKey d k then d.map (fun p => if p.1 == k then (k, v) else p)
  else d ++ [(k, v)]

/-- Python's `del d[k]`: remove the key, or raise `KeyError` (modelled as
`Except.error k`) when it is absent. -/
def pyDelete (d : Dict) (k : String) : Except String Dict :=
  if hasKey d k then Except.ok (d.filter (fun p => !(p.1 == k)))
  else Except.error k

/-- Sequentially delete the listed keys from a dict, as the loops
`for r in ready.keys(): del to_build[r]` do.  Returns the partially
updated dict together with the first key that raised `KeyError`, if any. -/
def delKeys : Dict → List String → Dict × Option String
  | d, [] => (d, none)
  | d, k :: ks =>
    if hasKey d k then delKeys (d.filter (fun p => !(p.1 == k))) ks
    else (d, some k)

/-- The substitution mapping computed in `build_one` (line 141):
`{repo: img.string_version for repo, img in built.items()}`. -/
def templateData (built : Dict) : List (String × String) :=
  built.map (fun p => (p.1, p.2.string_version))

/-- The tag computed in `build_one` (line 146). -/
def buildTag (i : ImageToBuild) : String := i.full_repo ++ ":" ++ i.string_version

/-- Pure observable content of one `build_one` call: the substitution
mapping handed to the template renderer and the tag handed to
`docker build` (and to `docker push` when pushing). -/
def build_one (i : ImageToBuild) (built : Dict) : List (String × String) × String :=
  (templateData built, buildTag i)

/-- State of `do_builds`' main loop: the remaining `to_build` dict, the
`ready` dict, the `built` dict, and a trace of the `build_one` calls made
so far. -/
structure SchedState where
  to_build : Dict
  ready : Dict
  built : Dict
  trace : List (String × (List (String × String)) × String)
deriving DecidableEq

/-- How the main loop stops: normal exit (`ready` empty), an uncaught
Python `KeyError` naming the offending key, or fuel exhaustion (an
artefact of the embedding; enough fuel is always supplied). -/
inductive Halt where
  | done
  | keyErr (k : String)
  | fuelOut
deriving DecidableEq

/-- Result of one iteration of the main loop: continue with a new state,
or halt. -/
inductive IterRes where
  | cont (s : SchedState)
  | halt (s : SchedState) (h : Halt)
deriving DecidableEq

/-- One iteration of the `while len(ready) > 0` loop of `do_builds`
(lines 175-190): pick the first ready image, call `build_one` with the
current `built` dict, record it as built, delete it from `ready`, re-scan
`to_build` for newly ready images, then delete every key of `ready` from
`to_build` (which raises `KeyError` for any ready image left over from a
previous iteration, since that was already deleted from `to_build`). -/
def iterOnce (s : SchedState) : IterRes :=
  match s.ready with
  | [] => IterRes.halt s Halt.done
  | nb :: _ =>
    let tr := s.trace ++ [(nb.2.repo, build_one nb.2 s.built)]
    let built1 := pySet s.built nb.2.repo nb.2
    match pyDelete s.ready nb.2.repo with
    | Except.error k => IterRes.halt { s with built := built1, trace := tr } (Halt.keyErr k)
    | Except.ok ready1 =>
      let ready2 := s.to_build.foldl
        (fun rd c => if c.2.deps.all (fun d => hasKey built1 d) then pySet rd c.2.repo c.2 else rd)
        ready1
      match delKeys s.to_build (dkeys ready2) with
      | (tb1, some k) =>
        IterRes.halt { to_build := tb1, ready := ready2, built := built1, trace := tr } (Halt.keyErr k)
      | (tb1, none) =>
        IterRes.cont { to_build := tb1, ready := ready2, built := built1, trace := tr }

/-- The state a loop iteration continues with when the invariant holds
and exactly one image `nb` is ready: `nb` is appended to `built`, the
newly-ready images move from `to_build` to `ready`, and the `build_one`
call is recorded. -/
def contNext (s : SchedState) (nb : String × ImageToBuild) : SchedState :=
  { to_build :=
      s.to_build.filter
        (fun p =>
          !((dkeys (s.to_build.filter
              (fun c => c.2.deps.all (fun d => hasKey (s.built ++ [nb]) d)))).contains p.1))
    ready := s.to_build.filter (fun c => c.2.deps.all (fun d => hasKey (s.built ++ [nb]) d))
    built := s.built ++ [nb]
    trace := s.trace ++ [(nb.1, build_one nb.2 s.built)] }

/-- The main loop, driven by fuel (the real loop always terminates because
every iteration moves one image out of `ready` and strictly shrinks
`|to_build| + |ready|`; `do_builds` supplies sufficient fuel). -/
def loopAux : Nat → SchedState → SchedState × Halt
  | 0, s => (s, Halt.fuelOut)
  | f + 1, s =>
    match iterOnce s with
    | IterRes.halt s1 h => (s1, h)
    | IterRes.cont s1 => loopAux f s1

/-- The pre-loop phase of `do_builds` (lines 166-170): images with an empty
dependency list are ready immediately. -/
def initReady (tb : Dict) : Dict :=
  tb.foldl (fun rd c => if c.2.deps.isEmpty then pySet rd c.2.repo c.2 else rd) []

/-- The state right after the pre-loop phase of `do_builds`
(lines 166-174), assuming its `del` loop raised no `KeyError`. -/
def initState (tb0 : Dict) : SchedState :=
  { to_build := (delKeys tb0 (dkeys (initReady tb0))).1
    ready := initReady tb0
    built := []
    trace := [] }

/-- Runs the whole of `do_builds` up to (but excluding) the final
`if len(to_build) != 0` check, returning the final state and how the loop
stopped. -/
def doBuildsLoop (tb0 : Dict) : SchedState × Halt :=
  match delKeys tb0 (dkeys (initReady tb0)) with
  | (tb1, some k) =>
    ({ to_build := tb1, ready := initReady tb0, built := [], trace := [] }, Halt.keyErr k)
  | (tb1, none) =>
    loopAux (tb1.length + (initReady tb0).length + 1)
      { to_build := tb1, ready := initReady tb0, built := [], trace := [] }

/-- Outcome of a `do_builds` call: success (with the build order), the
`sys.exit(1)` path listing the unbuilt repos (lines 192-197), an uncaught
`KeyError`, or the fuel artefact. -/
inductive Outcome where
  | success (order : List String)
  | stuck (unbuilt : List String)
  | pyError (k : String)
  | fuelOut
deriving DecidableEq

/-- The `do_builds` function of `build-push.py` (lines 153-197). -/
def do_builds (tb0 : Dict) : Outcome :=
  match doBuildsLoop tb0 with
  | (s, Halt.done) =>
    if s.to_build.length != 0 then Outcome.stuck (dkeys s.to_build)
    else Outcome.success (dkeys s.built)
  | (_, Halt.keyErr k) => Outcome.pyError k
  | (_, Halt.fuelOut) => Outcome.fuelOut

/-- Process exit status: 0 on success, non-zero otherwise (`sys.exit(1)`
for the stuck path, interpreter exit code 1 for an uncaught exception). -/
def exitCode : Outcome → Nat
  | Outcome.success _ => 0
  | _ => 1

/-- The selection step of `main` (lines 219-225): with `--only` values the
catalog is filtered to the wanted names; otherwise everything is built. -/
def select_only (all : Dict) (only : Option (List String)) : Dict :=
  match only with
  | none => all
  | some l => all.filter (fun p => l.contains p.1)

/-- The tail of `main`: select, then run `do_builds`. -/
def mainModel (all : Dict) (only : Option (List String)) : Outcome :=
  do_builds (select_only all only)

/-- Decimal value of a digit list, as Python's `int` computes it on the
digits captured by the regex group. -/
def digitsVal (cs : List Char) : Nat := cs.foldl (fun a c => 10 * a + (c.toNat - 48)) 0

/-- Model of `re.compile('^v(\d+)$').fullmatch` followed by `int` on the
group (lines 53, 63-65): the tag must be a literal `v` followed by a
non-empty run of digits; its integer value is returned. -/
def vtagValue (s : String) : Option Nat :=
  match s.data with
  | 'v' :: rest =>
    if !rest.isEmpty && rest.all Char.isDigit then some (digitsVal rest) else none
  | _ => none

/-- The inner `for tag_data in result_json['results']` loop of
`get_max_version`: fold the running maximum over one page of tags,
ignoring tags that do not match the pattern. -/
def pageMax (acc : Nat) (page : List String) : Nat :=
  page.foldl
    (fun a t =>
      match vtagValue t with
      | some v => Nat.max a v
      | none => a)
    acc

/-- The `get_max_version` function of `build-push.py` (lines 36-73): the
paginated tag source is modelled as the list of pages it serves; the
`while True` loop follows them in order, starting from `max_tag = 0`. -/
def get_max_version (pages : List (List String)) : Nat := pages.foldl pageMax 0

/-- The version assignment of `main` (line 208): `get_max_version(repo) + 1`. -/
def incrementVersion (pages : List (List String)) : Nat := get_max_version pages + 1

/-- Specification-side maximum: the fold of `max` over the values of all
matching tags across the concatenation of all pages. -/
def specMaxTag (pages : List (List String)) : Nat :=
  ((pages.flatten).filterMap vtagValue).foldr Nat.max 0

/-- Specification-side zero-padded width-3 decimal rendering of `n`
(meaningful for `n ≤ 999`): hundreds, tens and units digits. -/
def pad3Spec (n : Nat) : List Char :=
  [Nat.digitChar (n / 100), Nat.digitChar (n / 10 % 10), Nat.digitChar (n % 10)]

/-- Dependency list of a repo in a catalog (empty for an unknown repo). -/
def depsOf (cat : Dict) (r : String) : List String :=
  match cat.find? (fun p => p.1 == r) with
  | some p => p.2.deps
  | none => []

/-- One expansion step of the dependency closure: add the direct
dependencies of everything in the set. -/
def closureStep (cat : Dict) (s : List String) : List String :=
  s ++ (s.map (depsOf cat)).flatten

/-- Iterated expansion. -/
def closureIter (cat : Dict) : Nat → List String → List String
  | 0, s => s
  | n + 1, s => closureIter cat n (closureStep cat s)

/-- Specification-side transitive dependency closure of a starting set:
`cat.length` expansion steps saturate every path in the catalog. -/
def depClosure (cat : Dict) (s : List String) : List String :=
  closureIter cat cat.length s

/-- Every dependency identifier mentioned in the catalog is itself a key of
the catalog. -/
def missingFreeBool (cat : Dict) : Bool :=
  cat.all (fun p => p.2.deps.all (fun d => hasKey cat d))

/-- Some repo (transitively) depends on itself. -/
def hasCycleBool (cat : Dict) : Bool :=
  cat.any (fun p => (depClosure cat p.2.deps).contains p.1)

/-- The values of a dict record their own key as their repo name, as `main`
always arranges (`all_containers[repo]` is built from the directory whose
name is `repo`). -/
def keyConsistent (cat : Dict) : Prop := ∀ p ∈ cat, p.2.repo = p.1

/-- Executable check for `keyConsistent`. -/
def keyConsistentBool (cat : Dict) : Bool := cat.all (fun p => p.2.repo == p.1)

/-- Invariant tying a loop state of `do_builds` back to the catalog
originally passed in: all three dicts hold entries of the catalog, have
mutually disjoint duplicate-free key sets whose concatenation is a
permutation of the catalog's keys, and every ready image already has all
its dependencies built. -/
def SchedInv (cat : Dict) (s : SchedState) : Prop :=
  (∀ p ∈ s.to_build, p ∈ cat) ∧
  (∀ p ∈ s.ready, p ∈ cat) ∧
  (∀ p ∈ s.built, p ∈ cat) ∧
  (dkeys s.to_build).Nodup ∧
  (dkeys s.ready).Nodup ∧
  (dkeys s.built).Nodup ∧
  (dkeys s.to_build).Disjoint (dkeys s.ready) ∧
  (dkeys s.to_build).Disjoint (dkeys s.built) ∧
  (dkeys s.ready).Disjoint (dkeys s.built) ∧
  (dkeys s.to_build ++ dkeys s.ready ++ dkeys s.built).Perm (dkeys cat) ∧
  (∀ p ∈ s.ready, ∀ d ∈ p.2.deps, hasKey s.built d = true)

/-- What is known about a single recorded `build_one` call: its
substitution mapping is exactly the rendered versions of some sub-dict of
the catalog, the built repo is a catalog entry, the tag is its tag, and
every direct dependency of the built repo is a key of that sub-dict. -/
def TraceOk (cat : Dict) (e : String × (List (String × String)) × String) : Prop :=
  ∃ b : Dict, (∀ p ∈ b, p ∈ cat) ∧ e.2.1 = templateData b ∧
    ∃ img, (e.1, img) ∈ cat ∧ e.2.2 = buildTag img ∧
      ∀ d ∈ img.deps, hasKey b d = true

/-- All recorded `build_one` calls of a state are well-formed. -/
def TracesOk (cat : Dict) (s : SchedState) : Prop := ∀ e ∈ s.trace, TraceOk cat e

/-- States reachable from `a` by iterations of `do_builds`' main loop. -/
inductive Reaches : SchedState → SchedState → Prop where
  | refl (s : SchedState) : Reaches s s
  | tail {a b c : SchedState} : Reaches a b → iterOnce b = IterRes.cont c → Reaches a c

/-- C10's claimed state invariant at the start of a loop iteration,
together with the forward-only movement of repos across the three dicts
over one more iteration. -/
def schedClaimProp (cat : Dict) (s : SchedState) : Prop :=
  ((dkeys s.to_build).Nodup ∧ (dkeys s.ready).Nodup ∧ (dkeys s.built).Nodup) ∧
  ((dkeys s.to_build).Disjoint (dkeys s.ready) ∧
   (dkeys s.to_build).Disjoint (dkeys s.built) ∧
   (dkeys s.ready).Disjoint (dkeys s.built)) ∧
  (dkeys s.to_build ++ dkeys s.ready ++ dkeys s.built).Perm (dkeys cat) ∧
  (∀ s1, iterOnce s = IterRes.cont s1 →
    (∀ r ∈ dkeys s.built, r ∈ dkeys s1.built) ∧
    (∀ r ∈ dkeys s1.to_build, r ∈ dkeys s.to_build) ∧
    (∀ r ∈ dkeys s1.ready, r ∈ dkeys s.ready ∨ r ∈ dkeys s.to_build))

/-- C3's amended per-call property: the substitution mapping of a recorded
`build_one` call is the rendered-version map of a set of already-built
catalog entries that covers every direct dependency of the image being
built; in particular each direct dependency appears in the mapping with
its resolved version string. -/
def mappingClaimProp (cat : Dict) (e : String × (List (String × String)) × String) : Prop :=
  ∃ img, (e.1, img) ∈ cat ∧
    (∃ b : Dict, (∀ p ∈ b, p ∈ cat) ∧ e.2.1 = templateData b ∧
      ∀ d ∈ img.deps, hasKey b d = true) ∧
    ∀ d ∈ img.deps, ∃ dimg, (d, dimg) ∈ cat ∧ (d, dimg.string_version) ∈ e.2.1

/-- Concrete catalogs used as inputs of the counterexample and witness
theorems below. -/
def catA : Dict := [("a", ⟨"a", 1, []⟩), ("b", ⟨"b", 1, []⟩)]

/-- Two independent no-dependency images plus a two-cycle. -/
def catB : Dict :=
  [("a", ⟨"a", 1, []⟩), ("b", ⟨"b", 1, []⟩), ("c", ⟨"c", 1, ["d"]⟩), ("d", ⟨"d", 1, ["c"]⟩)]

/-- Two independent no-dependency images. -/
def catC : Dict := [("x", ⟨"x", 1, []⟩), ("y", ⟨"y", 1, []⟩)]

/-- A three-image chain: `c` depends on `b`, which depends on `a`. -/
def cat3 : Dict := [("a", ⟨"a", 1, []⟩), ("b", ⟨"b", 2, ["a"]⟩), ("c", ⟨"c", 3, ["b"]⟩)]

/-- A pure two-cycle. -/
def catW : Dict := [("c", ⟨"c", 1, ["d"]⟩), ("d", ⟨"d", 1, ["c"]⟩)]

/-- A base image and a worker depending on it. -/
def cat4 : Dict := [("base", ⟨"base", 1, []⟩), ("worker", ⟨"worker", 1, ["base"]⟩)]

/-- A catalog with a single no-dependency image. -/
def cat8 : Dict := [("base", ⟨"base", 1, []⟩)]

/-- The trace entry of the build of `c` in the run on `cat3`. -/
def entryC3 : String × (List (String × String)) × String :=
  ("c", [("a", "v001"), ("b", "v002")], "mvpstudio/c:v003")

/-- A two-image chain used by the C10 witness. -/
def cat10 : Dict := [("alpha", ⟨"alpha", 1, []⟩), ("beta", ⟨"beta", 1, ["alpha"]⟩)]

/-! Basic lemmas about the dict model. -/

theorem mem_dkeys {d : Dict} {k : String} : k ∈ dkeys d ↔ ∃ p ∈ d, p.1 = k := by
  simp [dkeys]

theorem hasKey_iff {d : Dict} {k : String} : hasKey d k = true ↔ k ∈ dkeys d := by
  simp [hasKey, dkeys, List.any_eq_true]

theorem hasKey_false_iff {d : Dict} {k : String} : hasKey d k = false ↔ k ∉ dkeys d := by
  rw [← hasKey_iff]
  cases h : hasKey d k <;> simp [h]

theorem dkeys_append (a b : Dict) : dkeys (a ++ b) = dkeys a ++ dkeys b := by
  simp [dkeys]

theorem dkeys_cons (p : String × ImageToBuild) (d : Dict) :
    dkeys (p :: d) = p.1 :: dkeys d := rfl

theorem dkeys_filter_mem {d : Dict} {Q : String × ImageToBuild → Bool} {a : String} :
    a ∈ dkeys (d.filter Q) ↔ ∃ p ∈ d, Q p = true ∧ p.1 = a := by
  constructor
  · intro h
    rcases mem_dkeys.1 h with ⟨p, hp, hk⟩
    rcases List.mem_filter.1 hp with ⟨hm, hq⟩
    exact ⟨p, hm, hq, hk⟩
  · rintro ⟨p, hm, hq, hk⟩
    exact mem_dkeys.2 ⟨p, List.mem_filter.2 ⟨hm, hq⟩, hk⟩

theorem dkeys_filter_sub {d : Dict} {Q : String × ImageToBuild → Bool} {a : String}
    (h : a ∈ dkeys (d.filter Q)) : a ∈ dkeys d := by
  rcases dkeys_filter_mem.1 h with ⟨p, hm, _, hk⟩
  exact mem_dkeys.2 ⟨p, hm, hk⟩

theorem nodup_dkeys_filter {d : Dict} {Q : String × ImageToBuild → Bool}
    (h : (dkeys d).Nodup) : (dkeys (d.filter Q)).Nodup :=
  List.Nodup.sublist (List.Sublist.map Prod.fst (List.filter_sublist d)) h

theorem pySet_append {d : Dict} {k : String} {v : ImageToBuild}
    (h : hasKey d k = false) : pySet d k v = d ++ [(k, v)] := by
  simp [pySet, h]

theorem pyDelete_cons_head {p : String × ImageToBuild} {rest : Dict}
    (h : (dkeys (p :: rest)).Nodup) : pyDelete (p :: rest) p.1 = Except.ok rest := by
  rw [dkeys_cons] at h
  have hrest : p.1 ∉ dkeys rest := (List.nodup_cons.1 h).1
  have hk : hasKey (p :: rest) p.1 = true := hasKey_iff.2 (by simp [dkeys_cons])
  simp only [pyDelete, hk, if_true]
  congr 1
  simp only [List.filter_cons]
  have hpp : (!(p.1 == p.1)) = false := by simp
  rw [hpp]
  simp only [Bool.false_eq_true, if_false]
  exact List.filter_eq_self.2 fun q hq => by
    have hne : q.1 ≠ p.1 := fun he => hrest (mem_dkeys.2 ⟨q, hq, he⟩)
    simpa using hne

theorem pair_eq_of_key_eq {d : Dict} (hnd : (dkeys d).Nodup) {p q : String × ImageToBuild}
    (hp : p ∈ d) (hq : q ∈ d) (hk : p.1 = q.1) : p = q :=
  List.inj_on_of_nodup_map hnd hp hq hk

theorem foldl_pySet (P : String × ImageToBuild → Bool) (tb : Dict) :
    ∀ racc : Dict, (dkeys tb).Nodup → (∀ p ∈ tb, p.2.repo = p.1) →
      (dkeys tb).Disjoint (dkeys racc) →
      tb.foldl (fun rd c => if P c then pySet rd c.2.repo c.2 else rd) racc
        = racc ++ tb.filter P := by
  induction tb with
  | nil => intro racc _ _ _; simp
  | cons t ts ih =>
    intro racc hnd hc hdisj
    rw [dkeys_cons] at hnd
    have ht1 : t.1 ∉ dkeys ts := (List.nodup_cons.1 hnd).1
    have hnd' := (List.nodup_cons.1 hnd).2
    have hrepo : t.2.repo = t.1 := hc t (by simp)
    have hdisj' : (dkeys ts).Disjoint (dkeys racc) := fun a ha hb =>
      hdisj (by rw [dkeys_cons]; exact List.mem_cons_of_mem _ ha) hb
    simp only [List.foldl_cons]
    cases hP : P t with
    | false =>
      simp only [Bool.false_eq_true, if_false]
      rw [ih racc hnd' (fun p hp => hc p (List.mem_cons_of_mem _ hp)) hdisj']
      rw [List.filter_cons, hP]
      simp
    | true =>
      have hnk : hasKey racc t.2.repo = false := by
        rw [hrepo]
        exact hasKey_false_iff.2 fun hmem =>
          hdisj (by rw [dkeys_cons]; exact List.mem_cons_self _ _) hmem
      rw [if_pos rfl]
      rw [pySet_append hnk, hrepo, Prod.mk.eta]
      have hdisj2 : (dkeys ts).Disjoint (dkeys (racc ++ [t])) := by
        intro a ha hb
        rw [dkeys_append] at hb
        rcases List.mem_append.1 hb with h1 | h2
        · exact hdisj' ha h1
        · have : a = t.1 := by simpa [dkeys] using h2
          exact ht1 (this ▸ ha)
      rw [ih (racc ++ [t]) hnd' (fun p hp => hc p (List.mem_cons_of_mem _ hp)) hdisj2]
      rw [List.filter_cons, hP]
      simp

theorem delKeys_ok (ks : List String) :
    ∀ tb : Dict, ks.Nodup → (∀ k ∈ ks, k ∈ dkeys tb) →
      delKeys tb ks = (tb.filter (fun p => !(ks.contains p.1)), none) := by
  induction ks with
  | nil => intro tb _ _; simp [delKeys]
  | cons k ks ih =>
    intro tb hnd hmem
    have hk : hasKey tb k = true := hasKey_iff.2 (hmem k (List.mem_cons_self _ _))
    simp only [delKeys, hk, if_true]
    have hmem' : ∀ k' ∈ ks, k' ∈ dkeys (tb.filter (fun p => !(p.1 == k))) := by
      intro k' hk'
      have hne : k' ≠ k := fun he => (List.nodup_cons.1 hnd).1 (he ▸ hk')
      rcases mem_dkeys.1 (hmem k' (List.mem_cons_of_mem _ hk')) with ⟨p, hp, hpk⟩
      exact dkeys_filter_mem.2 ⟨p, hp, by simp [hpk, hne], hpk⟩
    rw [ih _ (List.nodup_cons.1 hnd).2 hmem']
    congr 1
    rw [List.filter_filter]
    apply List.filter_congr
    intro p hp
    cases hc : ks.contains p.1 <;> cases he : p.1 == k <;>
      simp_all [List.contains_cons]

theorem delKeys_miss {tb : Dict} {k : String} {ks : List String}
    (h : hasKey tb k = false) : delKeys tb (k :: ks) = (tb, some k) := by
  simp [delKeys, h]

theorem filter_partition_perm {tb : Dict} (hnd : (dkeys tb).Nodup)
    (Q : String × ImageToBuild → Bool) :
    (dkeys (tb.filter (fun p => !((dkeys (tb.filter Q)).contains p.1)))
      ++ dkeys (tb.filter Q)).Perm (dkeys tb) := by
  have heq : tb.filter (fun p => !((dkeys (tb.filter Q)).contains p.1))
      = tb.filter (fun p => !(Q p)) := by
    apply List.filter_congr
    intro p hp
    congr 1
    cases hq : Q p with
    | true =>
      have : p.1 ∈ dkeys (tb.filter Q) := dkeys_filter_mem.2 ⟨p, hp, hq, rfl⟩
      simp [this]
    | false =>
      have hnin : p.1 ∉ dkeys (tb.filter Q) := by
        intro hin
        rcases dkeys_filter_mem.1 hin with ⟨q, hqm, hqQ, hqk⟩
        rw [pair_eq_of_key_eq hnd hqm hp hqk, hq] at hqQ
        exact Bool.false_ne_true hqQ
      simp [hnin]
  rw [heq]
  have hp2 : ((tb.filter fun p => !(Q p)) ++ tb.filter Q).Perm tb :=
    List.perm_append_comm.trans (List.filter_append_perm Q tb)
  simpa [dkeys, List.map_append] using hp2.map Prod.fst

theorem iterOnce_ready_nil {s : SchedState} (h : s.ready = []) :
    iterOnce s = IterRes.halt s Halt.done := by
  obtain ⟨tb, rd, bt, tr⟩ := s
  simp only at h
  subst h
  simp [iterOnce]

theorem iterOnce_single {cat : Dict} (hc : keyConsistent cat) {s : SchedState}
    (hinv : SchedInv cat s) {nb : String × ImageToBuild}
    (hready : s.ready = [nb]) :
    iterOnce s = IterRes.cont (contNext s nb) := by
  obtain ⟨htbc, hrdc, hbtc, htbn, hrdn, hbtn, hdtr, hdtb, hdrb, hperm, hrdy⟩ := hinv
  obtain ⟨tb, rd, bt, tr⟩ := s
  simp only at hready htbc hrdc hbtc htbn hrdn hbtn hdtr hdtb hdrb hperm hrdy
  subst hready
  have hnbmem : nb ∈ [nb] := List.mem_cons_self _ _
  have hnbcat : nb ∈ cat := hrdc nb hnbmem
  have hrepo : nb.2.repo = nb.1 := hc nb hnbcat
  have hnb1r : nb.1 ∈ dkeys [nb] := mem_dkeys.2 ⟨nb, hnbmem, rfl⟩
  have hkb : hasKey bt nb.2.repo = false := by
    rw [hrepo]
    exact hasKey_false_iff.2 fun hmem => hdrb hnb1r hmem
  have hdel : pyDelete [nb] nb.2.repo = Except.ok [] := by
    rw [hrepo]
    exact pyDelete_cons_head hrdn
  have hbuilt1 : pySet bt nb.2.repo nb.2 = bt ++ [nb] := by
    rw [pySet_append hkb, hrepo, Prod.mk.eta]
  simp only [iterOnce, hdel, hbuilt1]
  have hfold := foldl_pySet
    (fun c => c.2.deps.all (fun d => hasKey (bt ++ [nb]) d)) tb []
    htbn (fun p hp => hc p (htbc p hp)) (by simp [dkeys, List.Disjoint])
  rw [hfold]
  simp only [List.nil_append]
  have hdk := delKeys_ok
    (dkeys (tb.filter (fun c => c.2.deps.all (fun d => hasKey (bt ++ [nb]) d)))) tb
    (nodup_dkeys_filter htbn) (fun k hk => dkeys_filter_sub hk)
  rw [hdk]
  simp [contNext, hrepo]

theorem iterOnce_multi {cat : Dict} (hc : keyConsistent cat) {s : SchedState}
    (hinv : SchedInv cat s) {nb r2 : String × ImageToBuild} {rest : Dict}
    (hready : s.ready = nb :: r2 :: rest) :
    iterOnce s = IterRes.halt
      { to_build := s.to_build
        ready := (r2 :: rest) ++
          s.to_build.filter (fun c => c.2.deps.all (fun d => hasKey (s.built ++ [nb]) d))
        built := s.built ++ [nb]
        trace := s.trace ++ [(nb.1, build_one nb.2 s.built)] }
      (Halt.keyErr r2.1) := by
  obtain ⟨htbc, hrdc, hbtc, htbn, hrdn, hbtn, hdtr, hdtb, hdrb, hperm, hrdy⟩ := hinv
  obtain ⟨tb, rd, bt, tr⟩ := s
  simp only at hready htbc hrdc hbtc htbn hrdn hbtn hdtr hdtb hdrb hperm hrdy
  subst hready
  have hnbmem : nb ∈ nb :: r2 :: rest := List.mem_cons_self _ _
  have hnbcat : nb ∈ cat := hrdc nb hnbmem
  have hrepo : nb.2.repo = nb.1 := hc nb hnbcat
  have hnb1r : nb.1 ∈ dkeys (nb :: r2 :: rest) := mem_dkeys.2 ⟨nb, hnbmem, rfl⟩
  have hkb : hasKey bt nb.2.repo = false := by
    rw [hrepo]
    exact hasKey_false_iff.2 fun hmem => hdrb hnb1r hmem
  have hdel : pyDelete (nb :: r2 :: rest) nb.2.repo = Except.ok (r2 :: rest) := by
    rw [hrepo]
    exact pyDelete_cons_head hrdn
  have hbuilt1 : pySet bt nb.2.repo nb.2 = bt ++ [nb] := by
    rw [pySet_append hkb, hrepo, Prod.mk.eta]
  simp only [iterOnce, hdel, hbuilt1]
  have hdisj0 : (dkeys tb).Disjoint (dkeys (r2 :: rest)) := by
    intro a ha hb
    apply hdtr ha
    rw [dkeys_cons]
    exact List.mem_cons_of_mem _ hb
  have hfold := foldl_pySet
    (fun c => c.2.deps.all (fun d => hasKey (bt ++ [nb]) d)) tb (r2 :: rest)
    htbn (fun p hp => hc p (htbc p hp)) hdisj0
  rw [hfold]
  have hk2 : hasKey tb r2.1 = false := by
    apply hasKey_false_iff.2
    intro hmem
    apply hdtr hmem
    rw [dkeys_cons, dkeys_cons]
    exact List.mem_cons_of_mem _ (List.mem_cons_self _ _)
  have hcons : dkeys ((r2 :: rest) ++
      tb.filter (fun c => c.2.deps.all (fun d => hasKey (bt ++ [nb]) d)))
      = r2.1 :: (dkeys rest ++
        dkeys (tb.filter (fun c => c.2.deps.all (fun d => hasKey (bt ++ [nb]) d)))) := by
    rw [dkeys_append, dkeys_cons]
    rfl
  rw [hcons, delKeys_miss hk2]
  simp [hrepo]

theorem inv_contNext {cat : Dict} {s : SchedState}
    (hinv : SchedInv cat s) {nb : String × ImageToBuild}
    (hready : s.ready = [nb]) : SchedInv cat (contNext s nb) := by
  obtain ⟨htbc, hrdc, hbtc, htbn, hrdn, hbtn, hdtr, hdtb, hdrb, hperm, hrdy⟩ := hinv
  have hnbmem : nb ∈ s.ready := by rw [hready]; exact List.mem_cons_self _ _
  have hnbcat : nb ∈ cat := hrdc nb hnbmem
  have hnb1r : nb.1 ∈ dkeys s.ready := mem_dkeys.2 ⟨nb, hnbmem, rfl⟩
  have hbuiltk : dkeys (s.built ++ [nb]) = dkeys s.built ++ [nb.1] := by
    rw [dkeys_append]; rfl
  simp only [contNext]
  refine ⟨?_, ?_, ?_, ?_, ?_, ?_, ?_, ?_, ?_, ?_, ?_⟩
  · intro p hp
    exact htbc p (List.mem_filter.1 hp).1
  · intro p hp
    exact htbc p (List.mem_filter.1 hp).1
  · intro p hp
    rcases List.mem_append.1 hp with h1 | h2
    · exact hbtc p h1
    · have he : p = nb := by simpa using h2
      exact he ▸ hnbcat
  · exact nodup_dkeys_filter htbn
  · exact nodup_dkeys_filter htbn
  · rw [hbuiltk, List.nodup_append]
    refine ⟨hbtn, by simp, ?_⟩
    intro a ha hb
    have he : a = nb.1 := by simpa using hb
    exact hdrb hnb1r (he ▸ ha)
  · intro a ha hb
    rcases dkeys_filter_mem.1 ha with ⟨p, hp, hQ, hk⟩
    have hnin : p.1 ∉ dkeys (s.to_build.filter
        (fun c => c.2.deps.all (fun d => hasKey (s.built ++ [nb]) d))) := by
      simpa using hQ
    exact hnin (hk ▸ hb)
  · intro a ha hb
    have ha' : a ∈ dkeys s.to_build := dkeys_filter_sub ha
    rw [hbuiltk] at hb
    rcases List.mem_append.1 hb with h1 | h2
    · exact hdtb ha' h1
    · have he : a = nb.1 := by simpa using h2
      exact hdtr ha' (he ▸ hnb1r)
  · intro a ha hb
    have ha' : a ∈ dkeys s.to_build := dkeys_filter_sub ha
    rw [hbuiltk] at hb
    rcases List.mem_append.1 hb with h1 | h2
    · exact hdtb ha' h1
    · have he : a = nb.1 := by simpa using h2
      exact hdtr ha' (he ▸ hnb1r)
  · have hpart := filter_partition_perm htbn
      (fun c => c.2.deps.all (fun d => hasKey (s.built ++ [nb]) d))
    have hrdk : dkeys s.ready = [nb.1] := by rw [hready]; rfl
    have hperm' : (dkeys s.to_build ++ ([nb.1] ++ dkeys s.built)).Perm (dkeys cat) := by
      rw [← List.append_assoc, ← hrdk]
      exact hperm
    rw [hbuiltk]
    exact (hpart.append_right _).trans
      ((List.Perm.append_left _ List.perm_append_comm).trans hperm')
  · intro p hp d hd
    exact List.all_eq_true.1 (List.mem_filter.1 hp).2 d hd

theorem traceOk_new {cat : Dict} {s : SchedState}
    (hinv : SchedInv cat s) {nb : String × ImageToBuild} (hmem : nb ∈ s.ready) :
    TraceOk cat (nb.1, build_one nb.2 s.built) := by
  obtain ⟨htbc, hrdc, hbtc, htbn, hrdn, hbtn, hdtr, hdtb, hdrb, hperm, hrdy⟩ := hinv
  refine ⟨s.built, hbtc, rfl, nb.2, ?_, rfl, ?_⟩
  · rw [Prod.mk.eta]
    exact hrdc nb hmem
  · intro d hd
    exact hrdy nb hmem d hd

theorem traces_iterOnce {cat : Dict} (hc : keyConsistent cat) {s : SchedState}
    (hinv : SchedInv cat s) (htr : TracesOk cat s) :
    (∀ s1, iterOnce s = IterRes.cont s1 → TracesOk cat s1) ∧
    (∀ s1 h1, iterOnce s = IterRes.halt s1 h1 → TracesOk cat s1) := by
  cases hr : s.ready with
  | nil =>
    rw [iterOnce_ready_nil hr]
    constructor
    · intro s1 h
      exact (IterRes.noConfusion h)
    · intro s1 h1 h
      injection h with h2 h3
      subst h2
      exact htr
  | cons nb rest =>
    have hnbm : nb ∈ s.ready := by rw [hr]; exact List.mem_cons_self _ _
    cases rest with
    | nil =>
      rw [iterOnce_single hc hinv hr]
      constructor
      · intro s1 h
        injection h with h2
        subst h2
        intro e he
        simp only [contNext] at he
        rcases List.mem_append.1 he with h1 | h2
        · exact htr e h1
        · have he2 : e = (nb.1, build_one nb.2 s.built) := by simpa using h2
          subst he2
          exact traceOk_new hinv hnbm
      · intro s1 h1 h
        exact (IterRes.noConfusion h)
    | cons r2 rest2 =>
      rw [iterOnce_multi hc hinv hr]
      constructor
      · intro s1 h
        exact (IterRes.noConfusion h)
      · intro s1 h1 h
        injection h with h2 h3
        subst h2
        intro e he
        simp only at he
        rcases List.mem_append.1 he with ha | hb
        · exact htr e ha
        · have he2 : e = (nb.1, build_one nb.2 s.built) := by simpa using hb
          subst he2
          exact traceOk_new hinv hnbm

theorem inv_cont {cat : Dict} (hc : keyConsistent cat) {s s1 : SchedState}
    (hinv : SchedInv cat s) (h : iterOnce s = IterRes.cont s1) : SchedInv cat s1 := by
  cases hr : s.ready with
  | nil =>
    rw [iterOnce_ready_nil hr] at h
    exact (IterRes.noConfusion h)
  | cons nb rest =>
    cases rest with
    | nil =>
      rw [iterOnce_single hc hinv hr] at h
      injection h with h2
      subst h2
      exact inv_contNext hinv hr
    | cons r2 rest2 =>
      rw [iterOnce_multi hc hinv hr] at h
      exact (IterRes.noConfusion h)

theorem inv_reaches {cat : Dict} (hc : keyConsistent cat) {s s1 : SchedState}
    (hr : Reaches s s1) (hinv : SchedInv cat s) : SchedInv cat s1 := by
  induction hr with
  | refl => exact hinv
  | tail hab hbc ih => exact inv_cont hc ih hbc

theorem traces_loopAux {cat : Dict} (hc : keyConsistent cat) :
    ∀ (f : Nat) (s : SchedState), SchedInv cat s → TracesOk cat s →
      TracesOk cat (loopAux f s).1 := by
  intro f
  induction f with
  | zero =>
    intro s hinv htr
    exact htr
  | succ f ih =>
    intro s hinv htr
    simp only [loopAux]
    cases h : iterOnce s with
    | halt s1 h1 =>
      exact (traces_iterOnce hc hinv htr).2 s1 h1 h
    | cont s1 =>
      exact ih s1 (inv_cont hc hinv h) ((traces_iterOnce hc hinv htr).1 s1 h)

theorem iterOnce_halt_done {s s1 : SchedState}
    (h : iterOnce s = IterRes.halt s1 Halt.done) : s1.ready = [] := by
  cases hr : s.ready with
  | nil =>
    rw [iterOnce_ready_nil hr] at h
    injection h with h1 h2
    subst h1
    exact hr
  | cons nb rest =>
    obtain ⟨tb, rd, bt, tr⟩ := s
    simp only at hr
    subst hr
    simp only [iterOnce] at h
    split at h
    · injection h with h1 h2
      exact (Halt.noConfusion h2)
    · split at h
      · injection h with h1 h2
        exact (Halt.noConfusion h2)
      · exact (IterRes.noConfusion h)

theorem loopAux_done_ready_nil :
    ∀ (f : Nat) (s s1 : SchedState), loopAux f s = (s1, Halt.done) → s1.ready = [] := by
  intro f
  induction f with
  | zero =>
    intro s s1 h
    injection h with h1 h2
    exact (Halt.noConfusion h2)
  | succ f ih =>
    intro s s1 h
    simp only [loopAux] at h
    cases hi : iterOnce s with
    | halt s2 h2 =>
      rw [hi] at h
      injection h with ha hb
      subst ha hb
      exact iterOnce_halt_done hi
    | cont s2 =>
      rw [hi] at h
      exact ih s2 s1 h

theorem initReady_eq {tb0 : Dict} (hnd : (dkeys tb0).Nodup) (hc : keyConsistent tb0) :
    initReady tb0 = tb0.filter (fun c => c.2.deps.isEmpty) := by
  unfold initReady
  rw [foldl_pySet _ tb0 [] hnd (fun p hp => hc p hp) (by simp [dkeys, List.Disjoint])]
  simp

theorem initState_eq {tb0 : Dict} (hnd : (dkeys tb0).Nodup) (hc : keyConsistent tb0) :
    delKeys tb0 (dkeys (initReady tb0))
      = (tb0.filter
          (fun p => !((dkeys (tb0.filter (fun c => c.2.deps.isEmpty))).contains p.1)), none) := by
  rw [initReady_eq hnd hc]
  exact delKeys_ok _ tb0 (nodup_dkeys_filter hnd) (fun k hk => dkeys_filter_sub hk)

theorem inv_initState {tb0 : Dict} (hnd : (dkeys tb0).Nodup) (hc : keyConsistent tb0) :
    SchedInv tb0 (initState tb0) := by
  unfold initState
  rw [initState_eq hnd hc, initReady_eq hnd hc]
  refine ⟨?_, ?_, ?_, ?_, ?_, ?_, ?_, ?_, ?_, ?_, ?_⟩
  · intro p hp
    exact (List.mem_filter.1 hp).1
  · intro p hp
    exact (List.mem_filter.1 hp).1
  · intro p hp
    exact absurd hp (List.not_mem_nil p)
  · exact nodup_dkeys_filter hnd
  · exact nodup_dkeys_filter hnd
  · simp [dkeys]
  · intro a ha hb
    rcases dkeys_filter_mem.1 ha with ⟨p, hp, hQ, hk⟩
    have hnin : p.1 ∉ dkeys (tb0.filter (fun c => c.2.deps.isEmpty)) := by
      simpa using hQ
    exact hnin (hk ▸ hb)
  · intro a ha hb
    simp [dkeys] at hb
  · intro a ha hb
    simp [dkeys] at hb
  · have hpart := filter_partition_perm hnd (fun c => c.2.deps.isEmpty)
    simpa [dkeys] using hpart
  · intro p hp d hd
    have he : p.2.deps.isEmpty = true := (List.mem_filter.1 hp).2
    have : p.2.deps = [] := by
      cases h2 : p.2.deps with
      | nil => rfl
      | cons x xs => rw [h2] at he; exact (Bool.noConfusion he)
    rw [this] at hd
    exact absurd hd (List.not_mem_nil d)

theorem doBuildsLoop_eq {tb0 : Dict} (hnd : (dkeys tb0).Nodup) (hc : keyConsistent tb0) :
    doBuildsLoop tb0
      = loopAux ((initState tb0).to_build.length + (initReady tb0).length + 1)
          (initState tb0) := by
  unfold doBuildsLoop initState
  rw [initState_eq hnd hc]

theorem traces_run {cat : Dict} (hnd : (dkeys cat).Nodup) (hc : keyConsistent cat) :
    TracesOk cat (doBuildsLoop cat).1 := by
  rw [doBuildsLoop_eq hnd hc]
  apply traces_loopAux hc _ _ (inv_initState hnd hc)
  intro e he
  simp [initState] at he

theorem pageMax_eq (page : List String) : ∀ acc : Nat,
    pageMax acc page = Nat.max acc ((page.filterMap vtagValue).foldr Nat.max 0) := by
  induction page with
  | nil =>
    intro acc
    simp [pageMax]
  | cons t ts ih =>
    intro acc
    cases hv : vtagValue t with
    | none =>
      have hstep : pageMax acc (t :: ts) = pageMax acc ts := by
        simp only [pageMax, List.foldl_cons, hv]
      rw [hstep, ih acc]
      simp [List.filterMap_cons, hv]
    | some v =>
      have hstep : pageMax acc (t :: ts) = pageMax (Nat.max acc v) ts := by
        simp only [pageMax, List.foldl_cons, hv]
      rw [hstep, ih (Nat.max acc v)]
      simp [List.filterMap_cons, hv, Nat.max_assoc]

theorem foldr_max_append (a b : List Nat) :
    (a ++ b).foldr Nat.max 0 = Nat.max (a.foldr Nat.max 0) (b.foldr Nat.max 0) := by
  induction a with
  | nil => simp
  | cons x xs ih => simp [ih, Nat.max_assoc]

theorem foldl_pageMax_eq (pages : List (List String)) : ∀ acc : Nat,
    pages.foldl pageMax acc
      = Nat.max acc (((pages.flatten).filterMap vtagValue).foldr Nat.max 0) := by
  induction pages with
  | nil =>
    intro acc
    simp
  | cons p ps ih =>
    intro acc
    simp only [List.foldl_cons]
    rw [ih (pageMax acc p), pageMax_eq p acc, List.flatten_cons, List.filterMap_append,
      foldr_max_append]
    exact Nat.max_assoc _ _ _

theorem get_max_version_spec (pages : List (List String)) :
    get_max_version pages = specMaxTag pages := by
  unfold get_max_version specMaxTag
  rw [foldl_pageMax_eq pages 0]
  simp

theorem decDigitsAux_one {f m : Nat} (h1 : m < 10) (h2 : 0 < f) :
    decDigitsAux f m = [Nat.digitChar m] := by
  cases f with
  | zero => omega
  | succ f => simp [decDigitsAux, h1]

theorem decDigitsAux_two {f m : Nat} (h1 : 10 ≤ m) (h2 : m < 100) (h3 : m < f) :
    decDigitsAux f m = [Nat.digitChar (m / 10), Nat.digitChar (m % 10)] := by
  cases f with
  | zero => omega
  | succ f =>
    have hn : ¬ m < 10 := by omega
    simp only [decDigitsAux, hn, if_false]
    rw [decDigitsAux_one (by omega) (by omega)]
    rfl

theorem decDigitsAux_three {f m : Nat} (h1 : 100 ≤ m) (h2 : m < 1000) (h3 : m < f) :
    decDigitsAux f m
      = [Nat.digitChar (m / 100), Nat.digitChar (m / 10 % 10), Nat.digitChar (m % 10)] := by
  cases f with
  | zero => omega
  | succ f =>
    have hn : ¬ m < 10 := by omega
    simp only [decDigitsAux, hn, if_false]
    rw [decDigitsAux_two (by omega) (by omega) (by omega)]
    have hdd : m / 10 / 10 = m / 100 := by omega
    rw [hdd]
    rfl

theorem decDigits_lt10 {n : Nat} (h : n < 10) : decDigits n = [Nat.digitChar n] :=
  decDigitsAux_one h (by omega)

theorem decDigits_two {n : Nat} (h1 : 10 ≤ n) (h2 : n < 100) :
    decDigits n = [Nat.digitChar (n / 10), Nat.digitChar (n % 10)] :=
  decDigitsAux_two h1 h2 (by omega)

theorem decDigits_three {n : Nat} (h1 : 100 ≤ n) (h2 : n < 1000) :
    decDigits n
      = [Nat.digitChar (n / 100), Nat.digitChar (n / 10 % 10), Nat.digitChar (n % 10)] :=
  decDigitsAux_three h1 h2 (by omega)

theorem digitChar_toNat {d : Nat} (h : d < 10) : (Nat.digitChar d).toNat = d + 48 := by
  interval_cases d <;> rfl

theorem digitChar_isDigit {d : Nat} (h : d < 10) : (Nat.digitChar d).isDigit = true := by
  interval_cases d <;> decide

theorem fmtV3_eq_pad3 {n : Nat} (h : n ≤ 999) : fmtV3 n = String.mk ('v' :: pad3Spec n) := by
  unfold fmtV3 pad3Spec
  rcases Nat.lt_or_ge n 10 with h1 | h1
  · rw [decDigits_lt10 h1]
    have e1 : n / 100 = 0 := by omega
    have e2 : n / 10 % 10 = 0 := by omega
    have e3 : n % 10 = n := by omega
    rw [e1, e2, e3]
    simp
    rfl
  rcases Nat.lt_or_ge n 100 with h2 | h2
  · rw [decDigits_two h1 h2]
    have e1 : n / 100 = 0 := by omega
    have e2 : n / 10 % 10 = n / 10 := by omega
    rw [e1, e2]
    simp
    rfl
  · have h3 : n < 1000 := by omega
    rw [decDigits_three h2 h3]
    simp

theorem digitsVal_pad3 {n : Nat} (h : n ≤ 999) : digitsVal (pad3Spec n) = n := by
  unfold digitsVal pad3Spec
  simp only [List.foldl_cons, List.foldl_nil]
  rw [digitChar_toNat (by omega), digitChar_toNat (by omega), digitChar_toNat (by omega)]
  omega

theorem pad3_all_digits {n : Nat} (h : n ≤ 999) : ∀ c ∈ pad3Spec n, c.isDigit = true := by
  unfold pad3Spec
  intro c hc
  simp only [List.mem_cons, List.not_mem_nil, or_false] at hc
  rcases hc with h1 | h1 | h1 <;> (subst h1; exact digitChar_isDigit (by omega))

theorem keyConsistent_of_bool {cat : Dict} (h : keyConsistentBool cat = true) :
    keyConsistent cat := by
  intro p hp
  have := List.all_eq_true.1 h p hp
  simpa using this

/-! The claim theorems. -/

/-- C1: the claim fails on the code.  The catalog `catA` of two independent
no-dependency images has no cycle and no missing dependency identifier, yet
`do_builds` does not build every image: it builds only `a` and then crashes
with an uncaught `KeyError` on `b`, because the per-iteration cleanup loop
deletes the still-ready `b` from `to_build` a second time (lines 189-190). -/
theorem c1_acyclic_complete_catalog_crashes :
    missingFreeBool catA = true ∧ hasCycleBool catA = false ∧
    do_builds catA = Outcome.pyError "b" ∧
    (doBuildsLoop catA).1.trace.map Prod.fst = ["a"] := by decide

/-- C2: the claim fails on the code.  The catalog `catB` contains a
two-cycle `c ↔ d`, but the run never reports `{c, d}` as unbuilt: after
building the first of the two independent images `a`, `b`, the cleanup loop
raises `KeyError` on `b` (lines 189-190), so the scheduler terminates with
an uncaught exception and reports nothing. -/
theorem c2_cycle_catalog_crashes_before_report :
    hasCycleBool catB = true ∧ missingFreeBool catB = true ∧
    do_builds catB = Outcome.pyError "b" ∧
    (∀ l : List String, do_builds catB ≠ Outcome.stuck l) := by
  refine ⟨by decide, by decide, by decide, ?_⟩
  intro l h
  rw [show do_builds catB = Outcome.pyError "b" by decide] at h
  exact (Outcome.noConfusion h)

/-- C5: the claim fails on the code.  On the catalog `catC` of two
simultaneously ready images, the cleanup loop `for r in ready.keys():
del to_build[r]` deletes the key `y` from a `to_build` map that does not
contain it — `y` is still in `ready` at the start of the first iteration
but was already removed from `to_build` — so the run raises `KeyError`. -/
theorem c5_cleanup_deletes_missing_key :
    do_builds catC = Outcome.pyError "y" ∧
    hasKey (initState catC).to_build "y" = false ∧
    "y" ∈ dkeys (initState catC).ready := by decide

/-- C4: the claim fails on the code.  With `--only worker` on a catalog
where `worker` depends on `base`, the effective build set is just
`{worker}` — the transitive dependency closure (`{worker, base}`) is *not*
added, contradicting the `--only` help text — and the run then exits
non-zero with `worker` unbuilt because its dependency is never scheduled. -/
theorem c4_only_does_not_add_dependencies :
    dkeys (select_only cat4 (some ["worker"])) = ["worker"] ∧
    ("worker" :: depClosure cat4 (depsOf cat4 "worker")) = ["worker", "base"] ∧
    "base" ∉ dkeys (select_only cat4 (some ["worker"])) ∧
    mainModel cat4 (some ["worker"]) = Outcome.stuck ["worker"] ∧
    exitCode (mainModel cat4 (some ["worker"])) = 1 := by decide

/-- C8 counterexample: a wanted identifier absent from the catalog is not
reported at all: with `--only typo` on a catalog that has no repo `typo`,
the selection silently drops it, `do_builds` runs on an empty build set,
and the process exits 0 without naming `typo` anywhere. -/
theorem c8_counterexample_unknown_only_is_silent :
    select_only cat8 (some ["typo"]) = [] ∧
    mainModel cat8 (some ["typo"]) = Outcome.success [] ∧
    exitCode (mainModel cat8 (some ["typo"])) = 0 := by decide

/-- C8 amended: a wanted repo identifier absent from the catalog is
silently dropped: it never appears in the effective build set, and erasing
it from the wanted list does not change the selection at all (no error is
raised anywhere — the selection is a pure filter). -/
theorem c8_amended_unknown_only_dropped (all : Dict) (only : List String) (w : String)
    (_hw : w ∈ only) (hnk : hasKey all w = false) :
    w ∉ dkeys (select_only all (some only)) ∧
    select_only all (some only) = select_only all (some (only.erase w)) := by
  constructor
  · intro hmem
    simp only [select_only] at hmem
    exact (hasKey_false_iff.1 hnk) (dkeys_filter_sub hmem)
  · simp only [select_only]
    apply List.filter_congr
    intro p hp
    have hpw : p.1 ≠ w := fun he => (hasKey_false_iff.1 hnk) (mem_dkeys.2 ⟨p, hp, he⟩)
    by_cases hm : p.1 ∈ only
    · have hm2 : p.1 ∈ only.erase w := (List.mem_erase_of_ne hpw).2 hm
      simp [hm, hm2]
    · have hm2 : p.1 ∉ only.erase w := fun hx => hm (List.mem_of_mem_erase hx)
      simp [hm, hm2]

/-- Witness for the amended C8 at a concrete input. -/
theorem c8_amended_witness :
    ("typo" ∈ ["typo", "base"]) ∧ hasKey cat8 "typo" = false ∧
    ("typo" ∉ dkeys (select_only cat8 (some ["typo", "base"])) ∧
      select_only cat8 (some ["typo", "base"])
        = select_only cat8 (some (["typo", "base"].erase "typo"))) :=
  ⟨by decide, by decide,
    c8_amended_unknown_only_dropped cat8 ["typo", "base"] "typo" (by decide) (by decide)⟩

/-- C6: whenever the main loop of `do_builds` exits normally (which only
happens when no image is ready any more) with images still pending, the
outcome lists exactly the keys of the whole pending map — every one of
them — and the process exit status is non-zero (`sys.exit(1)`). -/
theorem c6_stuck_reports_complete_pending_set (cat : Dict) (s : SchedState)
    (h : doBuildsLoop cat = (s, Halt.done)) (hne : s.to_build ≠ []) :
    do_builds cat = Outcome.stuck (dkeys s.to_build) ∧
    exitCode (do_builds cat) = 1 ∧ s.ready = [] := by
  have hready : s.ready = [] := by
    unfold doBuildsLoop at h
    split at h
    · injection h with h1 h2
      exact (Halt.noConfusion h2)
    · exact loopAux_done_ready_nil _ _ _ h
  have hlen : s.to_build.length ≠ 0 := fun h0 => hne (List.length_eq_zero.1 h0)
  have houtcome : do_builds cat = Outcome.stuck (dkeys s.to_build) := by
    unfold do_builds
    rw [h]
    simp [hlen]
  exact ⟨houtcome, by rw [houtcome]; rfl, hready⟩

/-- Witness for C6: on the pure two-cycle `catW` the loop exits normally at
once, both images are still pending, and they are both reported with exit
status 1. -/
theorem c6_stuck_witness :
    doBuildsLoop catW
      = ({ to_build := catW, ready := [], built := [], trace := [] }, Halt.done) ∧
    ({ to_build := catW, ready := [], built := [], trace := [] } : SchedState).to_build ≠ [] ∧
    (do_builds catW = Outcome.stuck ["c", "d"] ∧ exitCode (do_builds catW) = 1) := by
  refine ⟨by decide, by decide, ?_⟩
  have hr := c6_stuck_reports_complete_pending_set catW
    { to_build := catW, ready := [], built := [], trace := [] } (by decide) (by decide)
  exact ⟨hr.1, hr.2.1⟩

/-- C7: in increment mode the assigned version is one plus the maximum
value of all `vX` tags (X a decimal integer) accumulated across all pages,
non-matching tags being ignored; with no matching tag the version is 1, and
on the spec's example (`v1`, `v2` on one page, `vX`, `v10` on the next) it
is 11. -/
theorem c7_increment_mode_version :
    (∀ pages : List (List String),
      incrementVersion pages
        = ((pages.flatten).filterMap vtagValue).foldr Nat.max 0 + 1) ∧
    incrementVersion [["v1", "v2"], ["vX", "v10"]] = 11 ∧
    incrementVersion [] = 1 ∧
    incrementVersion [["latest", "vX"], []] = 1 ∧
    vtagValue "vX" = none ∧ vtagValue "v10" = some 10 := by
  refine ⟨?_, by decide, by decide, by decide, by decide, by decide⟩
  intro pages
  unfold incrementVersion
  rw [get_max_version_spec]
  rfl

/-- C9: for any version `n ≤ 999`, `string_version` renders the literal
letter `v` followed by exactly the width-3 zero-padded decimal of `n`
(three digit characters whose value is `n`); the very same rendering is
used for the substitution values handed to dependents (`templateData`) and
inside the tag the image is built and pushed under (`buildTag`). -/
theorem c9_version_string_format (n : Nat) (h : n ≤ 999) :
    fmtV3 n = String.mk ('v' :: pad3Spec n) ∧
    (pad3Spec n).length = 3 ∧
    (∀ c ∈ pad3Spec n, c.isDigit = true) ∧
    digitsVal (pad3Spec n) = n ∧
    (∀ i : ImageToBuild, i.version = n →
      i.string_version = fmtV3 n ∧ buildTag i = i.full_repo ++ ":" ++ fmtV3 n) ∧
    (∀ b : Dict, templateData b = b.map (fun p => (p.1, fmtV3 p.2.version))) := by
  refine ⟨fmtV3_eq_pad3 h, rfl, pad3_all_digits h, digitsVal_pad3 h, ?_, ?_⟩
  · intro i hv
    constructor
    · rw [ImageToBuild.string_version, hv]
    · rw [buildTag, ImageToBuild.string_version, hv]
  · intro b
    rfl

/-- Witness for C9 at the concrete version 7 (rendered `v007`). -/
theorem c9_version_string_witness :
    (7 : Nat) ≤ 999 ∧ fmtV3 7 = "v007" ∧
    (fmtV3 7 = String.mk ('v' :: pad3Spec 7) ∧
      (pad3Spec 7).length = 3 ∧
      (∀ c ∈ pad3Spec 7, c.isDigit = true) ∧
      digitsVal (pad3Spec 7) = 7 ∧
      (∀ i : ImageToBuild, i.version = 7 →
        i.string_version = fmtV3 7 ∧ buildTag i = i.full_repo ++ ":" ++ fmtV3 7) ∧
      (∀ b : Dict, templateData b = b.map (fun p => (p.1, fmtV3 p.2.version)))) :=
  ⟨by decide, by decide, c9_version_string_format 7 (by decide)⟩

/-- C3 counterexample: the claim fails on the code.  In the chain catalog
`cat3` (`c` depends on `b`, `b` depends on `a`), the substitution mapping
handed to the renderer when building `c` contains the resolved version of
`a` — a dependency of a dependency, not a direct dependency of `c` — since
`build_one` passes the whole `built` dict (line 141), not a restriction to
direct dependencies. -/
theorem c3_counterexample_mapping_not_restricted :
    entryC3 ∈ (doBuildsLoop cat3).1.trace ∧
    ("a", "v001") ∈ entryC3.2.1 ∧
    depsOf cat3 "c" = ["b"] ∧
    "a" ∉ depsOf cat3 "c" := by decide

/-- C3 amended: the substitution mapping of every `build_one` call is the
rendered-version map of a set of already-built catalog entries; it always
contains the resolved version of every *direct* dependency of the image
being built, but it is not restricted to them — all images built earlier in
the run are exposed as well. -/
theorem c3_amended_mapping_covers_direct_deps (cat : Dict)
    (hnd : (dkeys cat).Nodup) (hc : keyConsistent cat) :
    ∀ e ∈ (doBuildsLoop cat).1.trace, mappingClaimProp cat e := by
  intro e he
  have htr := traces_run hnd hc e he
  rcases htr with ⟨b, hbc, hmap, img, himg, htag, hdeps⟩
  refine ⟨img, himg, ⟨b, hbc, hmap, hdeps⟩, ?_⟩
  intro d hd
  have hk := hdeps d hd
  rcases mem_dkeys.1 (hasKey_iff.1 hk) with ⟨p, hp, hpk⟩
  refine ⟨p.2, ?_, ?_⟩
  · have hpe : (d, p.2) = p := by rw [← hpk]
    rw [hpe]
    exact hbc p hp
  · rw [hmap]
    have hpe : (d, p.2.string_version) = (p.1, p.2.string_version) := by rw [hpk]
    rw [hpe]
    exact List.mem_map.2 ⟨p, hp, rfl⟩

/-- Witness for the amended C3: the build of `c` in the `cat3` run carries
both of its (transitively collected) predecessors, in particular its direct
dependency `b` with version `v002`. -/
theorem c3_amended_witness :
    (dkeys cat3).Nodup ∧ keyConsistent cat3 ∧
    entryC3 ∈ (doBuildsLoop cat3).1.trace ∧
    mappingClaimProp cat3 entryC3 := by
  refine ⟨by decide, keyConsistent_of_bool (by decide), by decide, ?_⟩
  exact c3_amended_mapping_covers_direct_deps cat3 (by decide)
    (keyConsistent_of_bool (by decide)) entryC3 (by decide)

/-- C10: at the start of every iteration of `do_builds`' main loop (i.e. in
every state reachable from the post-setup state by whole loop iterations),
the key sets of `to_build`, `ready` and `built` are duplicate-free and
pairwise disjoint and their concatenation is a permutation of the key set
of the catalog originally passed in; over one more completed iteration
repos only move forward: `built` only grows, `to_build` only shrinks, and
anything in `ready` came from `ready` or `to_build`. -/
theorem c10_loop_state_invariant (cat : Dict) (hnd : (dkeys cat).Nodup)
    (hc : keyConsistent cat) (s : SchedState)
    (hr : Reaches (initState cat) s) : schedClaimProp cat s := by
  have hinv : SchedInv cat s := inv_reaches hc hr (inv_initState hnd hc)
  obtain ⟨htbc, hrdc, hbtc, htbn, hrdn, hbtn, hdtr, hdtb, hdrb, hperm, hrdy⟩ := hinv
  refine ⟨⟨htbn, hrdn, hbtn⟩, ⟨hdtr, hdtb, hdrb⟩, hperm, ?_⟩
  intro s1 hcont
  cases hrd : s.ready with
  | nil =>
    rw [iterOnce_ready_nil hrd] at hcont
    exact (IterRes.noConfusion hcont)
  | cons nb rest =>
    cases rest with
    | nil =>
      rw [iterOnce_single hc
        ⟨htbc, hrdc, hbtc, htbn, hrdn, hbtn, hdtr, hdtb, hdrb, hperm, hrdy⟩ hrd] at hcont
      injection hcont with he
      subst he
      refine ⟨?_, ?_, ?_⟩
      · intro r hrm
        simp only [contNext]
        rw [dkeys_append]
        exact List.mem_append.2 (Or.inl hrm)
      · intro r hrm
        exact dkeys_filter_sub hrm
      · intro r hrm
        exact Or.inr (dkeys_filter_sub hrm)
    | cons r2 rest2 =>
      rw [iterOnce_multi hc
        ⟨htbc, hrdc, hbtc, htbn, hrdn, hbtn, hdtr, hdtb, hdrb, hperm, hrdy⟩ hrd] at hcont
      exact (IterRes.noConfusion hcont)

/-- Witness for C10 at the initial state of the `cat10` run. -/
theorem c10_loop_state_invariant_witness :
    (dkeys cat10).Nodup ∧ keyConsistent cat10 ∧
    Reaches (initState cat10) (initState cat10) ∧
    schedClaimProp cat10 (initState cat10) :=
  ⟨by decide, keyConsistent_of_bool (by decide), Reaches.refl _,
    c10_loop_state_invariant cat10 (by decide)
      (keyConsistent_of_bool (by decide)) _ (Reaches.refl _)⟩
